import Mathlib

/-!
Verification of the reminder-scheduling and order-persistence logic of the
ethics-app repository (a React Native client over Supabase).

The definitions below are a shallow embedding of:
* `src/services/notificationService.js` — `scheduleDailyNotifications`,
  `updateUserNotificationSettings` (the time-slot construction, frequency
  clamping, the per-day/per-slot scheduling loop);
* `src/services/exerciseService.js` — `createExercise` (next display order),
  `getExercisesByGroup` (ordered read), `updateExerciseOrder` (owner gate);
* the `updateOrder` handler of the created-group detail screen;
* `handleSave` of `EditTimeframeModal.js` (per-user timeframe override
  validation).

Modelling conventions: timestamps are naturals counting milliseconds, a
calendar day is `trigger / msPerDay`; JS `Date` values normalised with
`setHours(0,0,0,0)` are represented by their day number.  JS falsy-or-default
idioms (`x || d`) are modelled by `jsOrInt` / `jsOrString`.  The Supabase
query layer is modelled as list operations: an `order(...)` read is a stable
merge sort by the requested keys (PostgreSQL puts NULLs last for ascending
and first for descending order when no explicit nulls option is given).
`Math.random()`-based choices are an injectable `rand` argument, as every
index expression `rand ... % len` ranges over all list positions.
-/

/-- Milliseconds in one calendar day (`24*60*60*1000`), the unit used by the
JS `Date` arithmetic in `notificationService.js`. -/
def msPerDay : Nat := 86400000

/-- Milliseconds in one hour. -/
def msPerHour : Nat := 3600000

/-- Milliseconds in one minute. -/
def msPerMin : Nat := 60000

/-- JS `v || d` for an optional integer field: `null`/`undefined`/`0` are
falsy and give the default. -/
def jsOrInt (v : Option Int) (d : Int) : Int :=
  match v with
  | none => d
  | some x => if x = 0 then d else x

/-- JS `v || d` for an optional string field: `null`/`undefined`/`""` are
falsy and give the default. -/
def jsOrString (v : Option String) (d : String) : String :=
  match v with
  | none => d
  | some s => if s = "" then d else s

/-- A time-of-day slot `{ hour, minute }` as built by
`scheduleDailyNotifications` from a `"H:M"` preference string. -/
structure TimeSlot where
  hour : Nat
  minute : Nat
deriving DecidableEq

/-- An active exercise as produced by `getActiveExercises`: the row joined
with its effective (possibly per-user overridden) date range, with both
range endpoints normalised to midnight, i.e. to calendar-day numbers. -/
structure ActiveExercise where
  id : Nat
  title : String
  effectiveStartDay : Nat
  effectiveEndDay : Nat
deriving DecidableEq

/-- A scheduled notification instance: the trigger timestamp (milliseconds)
together with the exercise data placed in the notification payload. -/
structure Inst where
  trigger : Nat
  exerciseId : Nat
  exerciseName : String
deriving DecidableEq

/-- A row of the `notification_preferences` table as consumed by
`scheduleDailyNotifications` (`frequency_per_day`, `time_1`..`time_3`).
`none` models SQL NULL / a missing JS field. -/
structure NotificationPrefs where
  frequency_per_day : Option Int
  time_1 : Option String
  time_2 : Option String
  time_3 : Option String

/-- JS `s.split(sep)` for a single-character separator, on the character
list of the string: `"" ↦ [""]`, `":" ↦ ["",""]`, `"13:00" ↦ ["13","00"]`. -/
def splitOnChar (sep : Char) : List Char → List (List Char)
  | [] => [[]]
  | c :: cs =>
    let r := splitOnChar sep cs
    if c = sep then [] :: r
    else
      match r with
      | [] => [[c]]
      | p :: ps => (c :: p) :: ps

/-- Value of a digit string, used once all characters are known digits. -/
def digitsVal (cs : List Char) : Nat :=
  cs.foldl (fun n c => n * 10 + (c.toNat - 48)) 0

/-- JS `Number(s)` restricted to the numerals that occur in `"H:M"` time
strings: a (possibly empty) all-digit string evaluates to its value (JS has
`Number("") = 0`), anything else is treated as NaN (`none`).  Exotic
numerals (signs, decimals, hex, whitespace) do not occur in the stored
time strings and are conservatively mapped to `none`. -/
def jsNumber? (cs : List Char) : Option Nat :=
  if cs.all (fun c => c.isDigit) then some (digitsVal cs) else none

/-- The body of `pushTimeIfValid`: `t.split(':').map(Number)` destructured
into `[h, m]`, rejected when either is NaN.  A string without `':'` yields
an undefined minute part (NaN), extra parts are ignored. -/
def parseClock (t : String) : Option TimeSlot :=
  match splitOnChar ':' t.toList with
  | h :: m :: _ =>
    match jsNumber? h, jsNumber? m with
    | some hv, some mv => some ⟨hv, mv⟩
    | _, _ => none
  | _ => none

/-- One `pushTimeIfValid(t)` call of `scheduleDailyNotifications`: a falsy
(`null`/`""`) or unparsable entry leaves the accumulator unchanged,
otherwise the parsed slot is appended. -/
def pushTime (acc : List TimeSlot) (t : Option String) : List TimeSlot :=
  match t with
  | none => acc
  | some s =>
    if s = "" then acc
    else
      match parseClock s with
      | some ts => acc ++ [ts]
      | none => acc

/-- The `times` array of `scheduleDailyNotifications`:
`pushTimeIfValid(prefs.time_1 || '13:00')` then `time_2`, `time_3`. -/
def buildTimes (p : NotificationPrefs) : List TimeSlot :=
  pushTime (pushTime (pushTime [] (some (jsOrString p.time_1 "13:00"))) p.time_2) p.time_3

/-- `Math.min(Math.max(prefs.frequency_per_day || 1, 1), 3)`. -/
def clampFrequency (f : Option Int) : Int :=
  min (max (jsOrInt f 1) 1) 3

/-- The clamped frequency as a natural number (it always lies in `[1,3]`). -/
def freqNat (p : NotificationPrefs) : Nat :=
  (clampFrequency p.frequency_per_day).toNat

/-- The count used in `times.slice(0, frequency > 0 ? frequency : 1)`. -/
def takeCount (p : NotificationPrefs) : Nat :=
  (if clampFrequency p.frequency_per_day > 0 then clampFrequency p.frequency_per_day else 1).toNat

/-- The `timeSlots` array of `scheduleDailyNotifications`:
`times.slice(0, frequency > 0 ? frequency : 1)`, with `{hour:13, minute:0}`
pushed when the slice is empty. -/
def timeSlots (p : NotificationPrefs) : List TimeSlot :=
  if ((buildTimes p).take (takeCount p)).isEmpty then [⟨13, 0⟩]
  else (buildTimes p).take (takeCount p)

/-- Trigger timestamp of slot `s` on iteration day `d`:
`new Date(currentDate).setHours(slot.hour, slot.minute, 0, 0)` (JS rolls
hours `≥ 24` into later days, matching this arithmetic). -/
def slotTrigger (d : Nat) (s : TimeSlot) : Nat :=
  d * msPerDay + (s.hour * msPerHour + s.minute * msPerMin)

/-- The exercises whose effective range contains day `d`
(the `activeForDay` filter). -/
def activeOn (exs : List ActiveExercise) (d : Nat) : List ActiveExercise :=
  exs.filter (fun ex => decide (ex.effectiveStartDay ≤ d) && decide (d ≤ ex.effectiveEndDay))

/-- `l[Math.floor(Math.random()*l.length)]` with an injected random value
`r`: `r % l.length` ranges over every index of a non-empty list, and the
lookup is `none` exactly when the list is empty. -/
def jsPick (r : Nat) (l : List α) : Option α :=
  l[r % l.length]?

/-- The body of the per-slot loop: skip the slot when its trigger is in the
past (`notificationDate >= now` guard), otherwise pick a random exercise
active on that day (no notification when none is). -/
def slotEmit (exs : List ActiveExercise) (now : Nat) (rand : Nat → TimeSlot → Nat)
    (d : Nat) (s : TimeSlot) : Option Inst :=
  if now ≤ slotTrigger d s then
    (jsPick (rand d s) (activeOn exs d)).map (fun ex => ⟨slotTrigger d s, ex.id, ex.title⟩)
  else none

/-- Notifications emitted for one iteration day: at most one per entry of
`timeSlots`. -/
def dayEmits (exs : List ActiveExercise) (p : NotificationPrefs) (now : Nat)
    (rand : Nat → TimeSlot → Nat) (d : Nat) : List Inst :=
  (timeSlots p).filterMap (slotEmit exs now rand d)

/-- `min` of the effective start days (the `globalStart` fold). -/
def minStart (exs : List ActiveExercise) : Nat :=
  match exs with
  | [] => 0
  | e :: es => es.foldl (fun a x => min a x.effectiveStartDay) e.effectiveStartDay

/-- `max` of the effective end days (the `globalEnd` fold). -/
def maxEnd (exs : List ActiveExercise) : Nat :=
  match exs with
  | [] => 0
  | e :: es => es.foldl (fun a x => max a x.effectiveEndDay) e.effectiveEndDay

/-- The days iterated by `while (currentDate <= globalEnd)` starting at
`a`: `a, a+1, ..., b` (empty when `a > b`). -/
def iterDays (a b : Nat) : List Nat :=
  (List.range (b + 1 - a)).map (fun k => a + k)

/-- The schedule computed by `scheduleDailyNotifications` after the
preference lookup: empty when there are no active exercises, otherwise the
per-day, per-slot emissions over
`max(today, globalStart) .. globalEnd`. -/
def computeSchedule (exs : List ActiveExercise) (p : NotificationPrefs) (now : Nat)
    (rand : Nat → TimeSlot → Nat) : List Inst :=
  if exs.isEmpty then []
  else (iterDays (max (now / msPerDay) (minStart exs)) (maxEnd exs)).flatMap
    (dayEmits exs p now rand)

/-- Outcome of a `scheduleDailyNotifications` run. -/
inductive SchedResult where
  | notGranted
  | queryFailed
  | prefsFailed
  | ok (count : Nat)
deriving DecidableEq

/-- The full `scheduleDailyNotifications` flow with its external effects
made explicit.  `prior` is the set of already-registered notification
instances; `exQ` / `prefQ` are the results of the active-exercises and
preferences queries (`none` = failure).  The returned list is the set of
registered instances after the run.  The order of effects follows the
source: permission check, `cancelAllScheduledNotificationsAsync()`, the
active-exercises query, the early return on an empty exercise list, the
preference query, then scheduling. -/
def runScheduleDaily (perm : Bool) (exQ : Option (List ActiveExercise))
    (prefQ : Option NotificationPrefs) (now : Nat) (rand : Nat → TimeSlot → Nat)
    (prior : List Inst) : List Inst × SchedResult :=
  if perm then
    match exQ with
    | none => ([], SchedResult.queryFailed)
    | some exs =>
      if exs.isEmpty then ([], SchedResult.ok 0)
      else
        match prefQ with
        | none => ([], SchedResult.prefsFailed)
        | some p => (computeSchedule exs p now rand, SchedResult.ok (computeSchedule exs p now rand).length)
  else (prior, SchedResult.notGranted)

example : parseClock "13:00" = some ⟨13, 0⟩ := by decide
example : parseClock "9" = none := by decide
example : parseClock "a:b" = none := by decide
example : parseClock "13:00:00" = some ⟨13, 0⟩ := by decide
example : timeSlots ⟨some 2, some "09:00", none, none⟩ = [⟨9, 0⟩] := by decide
example : timeSlots ⟨none, none, none, none⟩ = [⟨13, 0⟩] := by decide
example : timeSlots ⟨some 2, some "08:00", some "20:15", some "21:00"⟩ = [⟨8, 0⟩, ⟨20, 15⟩] := by
  decide
example :
    computeSchedule [⟨1, "t", 0, 0⟩] ⟨none, none, none, none⟩ 0 (fun _ _ => 0) =
      [⟨46800000, 1, "t"⟩] := by decide

lemma slotEmit_eq_some {exs : List ActiveExercise} {now : Nat} {rand : Nat → TimeSlot → Nat}
    {d : Nat} {s : TimeSlot} {i : Inst} (h : slotEmit exs now rand d s = some i) :
    i.trigger = slotTrigger d s ∧ now ≤ i.trigger := by
  unfold slotEmit at h
  by_cases hg : now ≤ slotTrigger d s
  · rw [if_pos hg] at h
    rcases Option.map_eq_some'.mp h with ⟨ex, _, hex⟩
    subst hex
    exact ⟨rfl, hg⟩
  · rw [if_neg hg] at h
    exact absurd h (by simp)

/-- C3.  No-past invariant: every instance in the computed schedule has its
trigger at or after `now`, and a slot whose computed trigger is strictly
earlier than `now` is discarded (emits nothing). -/
theorem scheduleDailyNotifications_no_past (exs : List ActiveExercise)
    (p : NotificationPrefs) (now : Nat) (rand : Nat → TimeSlot → Nat) :
    ((computeSchedule exs p now rand).all (fun i => decide (now ≤ i.trigger)) = true)
    ∧ ∀ d s, slotTrigger d s < now → slotEmit exs now rand d s = none := by
  constructor
  · rw [List.all_eq_true]
    intro i hi
    unfold computeSchedule at hi
    split at hi
    · exact absurd hi (List.not_mem_nil i)
    · rcases List.mem_flatMap.mp hi with ⟨d, _, hmem⟩
      rcases List.mem_filterMap.mp hmem with ⟨s, _, hemit⟩
      exact decide_eq_true (slotEmit_eq_some hemit).2
  · intro d s h
    unfold slotEmit
    rw [if_neg (by omega)]

/-- Witness for the no-past invariant at concrete inputs. -/
theorem scheduleDailyNotifications_no_past_witness :
    ((computeSchedule [⟨1, "t", 0, 0⟩] ⟨none, none, none, none⟩ 40000000 (fun _ _ => 0)).all
        (fun i => decide (40000000 ≤ i.trigger)) = true)
    ∧ slotEmit [⟨1, "t", 0, 0⟩] 40000000 (fun _ _ => 0) 0 ⟨0, 0⟩ = none :=
  ⟨(scheduleDailyNotifications_no_past [⟨1, "t", 0, 0⟩] ⟨none, none, none, none⟩
      40000000 (fun _ _ => 0)).1,
   (scheduleDailyNotifications_no_past [⟨1, "t", 0, 0⟩] ⟨none, none, none, none⟩
      40000000 (fun _ _ => 0)).2 0 ⟨0, 0⟩ (by decide)⟩

/-- C2 counterexample.  At a concrete run where the active-items query
fails (`exQ = none`) and one notification was previously scheduled, the
failure is propagated but the previously scheduled set is NOT left
unchanged: `cancelAllScheduledNotificationsAsync()` runs before the query,
so the prior instance is gone. -/
theorem scheduleDailyNotifications_cancels_before_query :
    (runScheduleDaily true none none 0 (fun _ _ => 0) [⟨0, 0, "x"⟩]).2 = SchedResult.queryFailed
    ∧ (runScheduleDaily true none none 0 (fun _ _ => 0) [⟨0, 0, "x"⟩]).1 ≠ [⟨0, 0, "x"⟩] := by
  constructor
  · rfl
  · decide

/-- C2 amended.  When the active-items query fails, the failure is
propagated to the caller and nothing is scheduled, but the previously
scheduled instances have already been cancelled (the registered set after
the run is empty), because the cancel-all step precedes the query. -/
theorem scheduleDailyNotifications_queryFailure (prefQ : Option NotificationPrefs)
    (now : Nat) (rand : Nat → TimeSlot → Nat) (prior : List Inst) :
    runScheduleDaily true none prefQ now rand prior = ([], SchedResult.queryFailed) := rfl

lemma sum_map_addf {α : Type _} (f g : α → Nat) (l : List α) :
    (l.map (fun x => f x + g x)).sum = (l.map f).sum + (l.map g).sum := by
  induction l with
  | nil => simp
  | cons a l ih => simp [ih]; omega

lemma sum_ite_le_one {σ : Type _} (s : σ) (f : Nat → σ → Bool)
    (hkey : ∀ d d', f d s = true → f d' s = true → d = d') :
    ∀ ds : List Nat, ds.Nodup → (ds.map (fun d => if f d s = true then 1 else 0)).sum ≤ 1 := by
  intro ds
  induction ds with
  | nil => intro; simp
  | cons d ds ih =>
    intro hnd
    rw [List.nodup_cons] at hnd
    rw [List.map_cons, List.sum_cons]
    by_cases h : f d s = true
    · rw [if_pos h]
      have hz : (ds.map (fun d' => if f d' s = true then 1 else 0)).sum = 0 := by
        apply List.sum_eq_zero
        intro x hx
        rcases List.mem_map.mp hx with ⟨d', hd', hval⟩
        by_cases h' : f d' s = true
        · exact absurd (hkey d' d h' h ▸ hd') hnd.1
        · rw [← hval, if_neg h']
      omega
    · rw [if_neg h]
      have := ih hnd.2
      omega

lemma sum_countP_le {σ : Type _} (f : Nat → σ → Bool)
    (hkey : ∀ d d' s, f d s = true → f d' s = true → d = d') :
    ∀ (L : List σ) (ds : List Nat), ds.Nodup →
      (ds.map (fun d => L.countP (f d))).sum ≤ L.length := by
  intro L
  induction L with
  | nil => intro ds _; simp
  | cons s L ih =>
    intro ds hnd
    have hfun : (fun d => (s :: L).countP (f d)) =
        fun d => L.countP (f d) + if f d s = true then 1 else 0 :=
      funext fun d => List.countP_cons (f d) s L
    rw [hfun, sum_map_addf]
    have h1 := ih ds hnd
    have h2 := sum_ite_le_one s f (fun d d' hd hd' => hkey d d' s hd hd') ds hnd
    simp only [List.length_cons]
    omega

lemma iterDays_nodup (a b : Nat) : (iterDays a b).Nodup :=
  List.Nodup.map (fun x y h => by omega) (List.nodup_range _)

lemma clampFrequency_bounds (f : Option Int) : 1 ≤ clampFrequency f ∧ clampFrequency f ≤ 3 := by
  constructor
  · exact le_min (le_max_right _ _) (by norm_num)
  · exact min_le_right _ _

lemma freqNat_bounds (p : NotificationPrefs) : 1 ≤ freqNat p ∧ freqNat p ≤ 3 := by
  have := clampFrequency_bounds p.frequency_per_day
  unfold freqNat
  omega

lemma takeCount_eq (p : NotificationPrefs) : takeCount p = freqNat p := by
  have := clampFrequency_bounds p.frequency_per_day
  unfold takeCount freqNat
  rw [if_pos (by omega)]

lemma timeSlots_length_le (p : NotificationPrefs) : (timeSlots p).length ≤ freqNat p := by
  unfold timeSlots
  have h1 := (freqNat_bounds p).1
  split
  · simpa using h1
  · rw [List.length_take, takeCount_eq]
    exact min_le_left _ _

/-- C1.  Cap invariant: for every calendar date `c` the computed schedule
contains at most `f` instances whose trigger falls on `c`, where `f` is the
clamped `frequencyPerDay`; and, per iteration day, each configured time
slot contributes at most one instance (the instances of day `d` carrying a
given trigger time are bounded by the number of slots computing it). -/
theorem scheduleDailyNotifications_cap (exs : List ActiveExercise) (p : NotificationPrefs)
    (now : Nat) (rand : Nat → TimeSlot → Nat) :
    (∀ c : Nat,
      (computeSchedule exs p now rand).countP (fun i => decide (i.trigger / msPerDay = c)) ≤
        freqNat p)
    ∧ ∀ d t : Nat,
      (dayEmits exs p now rand d).countP (fun i => decide (i.trigger = t)) ≤
        (timeSlots p).countP (fun s => decide (slotTrigger d s = t)) := by
  constructor
  · intro c
    unfold computeSchedule
    split
    · rw [List.countP_nil]
      exact Nat.zero_le _
    · rw [List.countP_flatMap]
      have hfun : (List.countP (fun i => decide (i.trigger / msPerDay = c)) ∘
            dayEmits exs p now rand) =
          fun d => (timeSlots p).countP (fun s =>
            (Option.map (fun i => decide (i.trigger / msPerDay = c))
              (slotEmit exs now rand d s)).getD false) := by
        funext d
        simp only [Function.comp, dayEmits]
        exact List.countP_filterMap _ _ _
      rw [hfun]
      have hkey : ∀ d d' s,
          (Option.map (fun i => decide (i.trigger / msPerDay = c))
            (slotEmit exs now rand d s)).getD false = true →
          (Option.map (fun i => decide (i.trigger / msPerDay = c))
            (slotEmit exs now rand d' s)).getD false = true → d = d' := by
        intro d d' s h h'
        cases he : slotEmit exs now rand d s with
        | none => rw [he] at h; simp at h
        | some i =>
          cases he' : slotEmit exs now rand d' s with
          | none => rw [he'] at h'; simp at h'
          | some i' =>
            rw [he] at h
            rw [he'] at h'
            simp at h h'
            have e1 := (slotEmit_eq_some he).1
            have e2 := (slotEmit_eq_some he').1
            simp only [slotTrigger, msPerDay, msPerHour, msPerMin] at e1 e2 h h'
            omega
      exact le_trans
        (sum_countP_le _ hkey (timeSlots p) _ (iterDays_nodup _ _))
        (timeSlots_length_le p)
  · intro d t
    unfold dayEmits
    rw [List.countP_filterMap]
    apply List.countP_mono_left
    intro s _ h
    cases he : slotEmit exs now rand d s with
    | none => rw [he] at h; simp at h
    | some i =>
      rw [he] at h
      simp at h
      have := (slotEmit_eq_some he).1
      simp only [decide_eq_true_eq]
      omega

lemma pushTime_cons (a : TimeSlot) (l : List TimeSlot) (t : Option String) :
    ∃ l', pushTime (a :: l) t = a :: l' := by
  rcases t with _ | s
  · exact ⟨l, rfl⟩
  · by_cases hs : s = ""
    · exact ⟨l, by simp [pushTime, hs]⟩
    · cases hp : parseClock s with
      | none => exact ⟨l, by simp [pushTime, hs, hp]⟩
      | some ts => exact ⟨l ++ [ts], by simp [pushTime, hs, hp]⟩

lemma buildTimes_default (p : NotificationPrefs) (h : p.time_1 = none ∨ p.time_1 = some "") :
    ∃ rest, buildTimes p = ⟨13, 0⟩ :: rest := by
  unfold buildTimes
  have h1 : jsOrString p.time_1 "13:00" = "13:00" := by
    rcases h with h | h <;> rw [h] <;> rfl
  rw [h1]
  have h2 : pushTime [] (some "13:00") = [⟨13, 0⟩] := by decide
  rw [h2]
  obtain ⟨l2, hl2⟩ := pushTime_cons ⟨13, 0⟩ [] p.time_2
  rw [hl2]
  exact pushTime_cons ⟨13, 0⟩ l2 p.time_3

/-- C9 counterexample.  With `frequency_per_day = 2` and a single supplied
time `09:00`, fewer time entries are supplied than the frequency, yet no
13:00 default is substituted anywhere: the slot list is just `[09:00]`. -/
theorem timeSlots_no_default_cex :
    clampFrequency (some 2) = 2
    ∧ timeSlots ⟨some 2, some "09:00", none, none⟩ = [⟨9, 0⟩]
    ∧ (timeSlots ⟨some 2, some "09:00", none, none⟩).length < 2
    ∧ (⟨13, 0⟩ : TimeSlot) ∉ timeSlots ⟨some 2, some "09:00", none, none⟩ := by decide

/-- C9 amended.  The computed slot list is never empty; when `time_1` is
absent (or empty) the 13:00 default is substituted for the first slot; and
when no supplied time parses, the slot list is exactly `[13:00]`.  (A
supplied, valid `time_1` is never replaced, even if fewer entries than
`frequencyPerDay` are given.) -/
theorem timeSlots_never_empty (p : NotificationPrefs) :
    timeSlots p ≠ []
    ∧ ((p.time_1 = none ∨ p.time_1 = some "") → (timeSlots p).head? = some ⟨13, 0⟩)
    ∧ (buildTimes p = [] → timeSlots p = [⟨13, 0⟩]) := by
  refine ⟨?_, ?_, ?_⟩
  · unfold timeSlots
    split
    · simp
    · rename_i h
      simp only [List.isEmpty_iff] at h
      exact h
  · intro h
    obtain ⟨rest, hbt⟩ := buildTimes_default p h
    have hk : 1 ≤ takeCount p := by
      rw [takeCount_eq]
      exact (freqNat_bounds p).1
    obtain ⟨k, hk'⟩ : ∃ k, takeCount p = k + 1 := ⟨takeCount p - 1, by omega⟩
    unfold timeSlots
    rw [hbt, hk']
    simp [List.take_succ_cons]
  · intro h
    unfold timeSlots
    rw [h]
    simp

/-- Witness for the amended C9 statement at concrete inputs. -/
theorem timeSlots_never_empty_witness :
    timeSlots ⟨some 1, none, none, none⟩ ≠ []
    ∧ (timeSlots ⟨some 1, none, none, none⟩).head? = some ⟨13, 0⟩
    ∧ timeSlots ⟨none, some "xx", none, none⟩ = [⟨13, 0⟩] :=
  ⟨(timeSlots_never_empty ⟨some 1, none, none, none⟩).1,
   (timeSlots_never_empty ⟨some 1, none, none, none⟩).2.1 (Or.inl rfl),
   (timeSlots_never_empty ⟨none, some "xx", none, none⟩).2.2 (by decide)⟩

/-- The argument object of `updateUserNotificationSettings(settings)`;
`none` models a missing/`null` field. -/
structure SettingsInput where
  frequency_per_day : Option Int
  time_1 : Option String
  time_2 : Option String
  time_3 : Option String

/-- A row of `notification_preferences` as upserted by
`updateUserNotificationSettings`. -/
structure PrefsRow where
  user_id : Nat
  frequency_per_day : Int
  time_1 : Option String
  time_2 : Option String
  time_3 : Option String

/-- JS `v >= k` for an optional number `v` and positive numeral `k`:
`undefined >= k` is false (NaN comparison) and `null >= k` is false for
`k ≥ 1` (`null` coerces to 0). -/
def jsGeB (v : Option Int) (k : Int) : Bool :=
  match v with
  | none => false
  | some x => decide (k ≤ x)

/-- The `payload` built by `updateUserNotificationSettings`: the clamped
frequency, `time_1` as given, and `time_2`/`time_3` nulled out when the
raw supplied `frequency_per_day` is below 2 resp. 3. -/
def updateUserNotificationSettingsPayload (uid : Nat) (s : SettingsInput) : PrefsRow where
  user_id := uid
  frequency_per_day := clampFrequency s.frequency_per_day
  time_1 := s.time_1
  time_2 := if jsGeB s.frequency_per_day 2 then s.time_2 else none
  time_3 := if jsGeB s.frequency_per_day 3 then s.time_3 else none

/-- C10.  The persisted preference row has `frequency_per_day` in `[1,3]`
(missing or falsy input defaulting to 1), `time_2 = null` whenever the
supplied frequency is below 2 (or missing), and `time_3 = null` whenever
the supplied frequency is below 3 (or missing). -/
theorem updateUserNotificationSettings_invariant (uid : Nat) (s : SettingsInput) :
    1 ≤ (updateUserNotificationSettingsPayload uid s).frequency_per_day
    ∧ (updateUserNotificationSettingsPayload uid s).frequency_per_day ≤ 3
    ∧ ((s.frequency_per_day = none ∨ s.frequency_per_day = some 0) →
        (updateUserNotificationSettingsPayload uid s).frequency_per_day = 1)
    ∧ (∀ x, s.frequency_per_day = some x → x < 2 →
        (updateUserNotificationSettingsPayload uid s).time_2 = none)
    ∧ (s.frequency_per_day = none → (updateUserNotificationSettingsPayload uid s).time_2 = none)
    ∧ (∀ x, s.frequency_per_day = some x → x < 3 →
        (updateUserNotificationSettingsPayload uid s).time_3 = none)
    ∧ (s.frequency_per_day = none → (updateUserNotificationSettingsPayload uid s).time_3 = none) := by
  refine ⟨(clampFrequency_bounds _).1, (clampFrequency_bounds _).2, ?_, ?_, ?_, ?_, ?_⟩
  · intro h
    rcases h with h | h <;>
      simp [updateUserNotificationSettingsPayload, clampFrequency, jsOrInt, h]
  · intro x hx hlt
    simp [updateUserNotificationSettingsPayload, jsGeB, hx]
    omega
  · intro h
    simp [updateUserNotificationSettingsPayload, jsGeB, h]
  · intro x hx hlt
    simp [updateUserNotificationSettingsPayload, jsGeB, hx]
    omega
  · intro h
    simp [updateUserNotificationSettingsPayload, jsGeB, h]

/-- Witness for the settings invariant at concrete inputs. -/
theorem updateUserNotificationSettings_invariant_witness :
    (updateUserNotificationSettingsPayload 0 ⟨some 1, none, some "a", some "b"⟩).time_2 = none
    ∧ (updateUserNotificationSettingsPayload 0 ⟨some 1, none, some "a", some "b"⟩).time_3 = none
    ∧ (updateUserNotificationSettingsPayload 0 ⟨none, none, none, none⟩).frequency_per_day = 1 :=
  ⟨(updateUserNotificationSettings_invariant 0 ⟨some 1, none, some "a", some "b"⟩).2.2.2.1
      1 rfl (by decide),
   (updateUserNotificationSettings_invariant 0 ⟨some 1, none, some "a", some "b"⟩).2.2.2.2.2.1
      1 rfl (by decide),
   (updateUserNotificationSettings_invariant 0 ⟨none, none, none, none⟩).2.2.1 (Or.inl rfl)⟩

/-- An `exercises` row, restricted to the fields that drive the ordered
read: `display_order` (nullable) and `created_at` (a timestamp). -/
structure Exercise where
  id : Nat
  display_order : Option Int
  created_at : Nat
deriving DecidableEq

/-- Comparator of the `getExercisesByGroup` read:
`order('display_order', { ascending: true, nullsFirst: false })` then
`order('created_at', { ascending: false })` — `a` may precede `b` iff its
`display_order` is strictly smaller (NULLs greatest), or the orders tie
and `a.created_at ≥ b.created_at`. -/
def keyLe (da db : Option Int) (ca cb : Nat) : Bool :=
  match da, db with
  | some x, some y => decide (x < y) || (decide (x = y) && decide (cb ≤ ca))
  | some _, none => true
  | none, some _ => false
  | none, none => decide (cb ≤ ca)

/-- The comparator on exercise rows. -/
def readLe (a b : Exercise) : Bool :=
  keyLe a.display_order b.display_order a.created_at b.created_at

/-- The ordered read `getExercisesByGroup` restricted to one group's rows:
the stored rows sorted by the two `order(...)` keys. -/
def getExercisesByGroup (rows : List Exercise) : List Exercise :=
  rows.mergeSort readLe

/-- The ordering relation stated by the spec, on the two sort keys:
`displayOrder` ascending with nulls/missing sorted last, ties (including
all-null) broken by descending creation time. -/
def specKeyOrder (da db : Option Int) (ca cb : Nat) : Prop :=
  match da, db with
  | some x, some y => x < y ∨ (x = y ∧ cb ≤ ca)
  | some _, none => True
  | none, some _ => False
  | none, none => cb ≤ ca

/-- The spec's ordering relation on exercise rows. -/
def specReadOrder (a b : Exercise) : Prop :=
  specKeyOrder a.display_order b.display_order a.created_at b.created_at

lemma keyLe_trans (d1 d2 d3 : Option Int) (c1 c2 c3 : Nat)
    (h1 : keyLe d1 d2 c1 c2 = true) (h2 : keyLe d2 d3 c2 c3 = true) :
    keyLe d1 d3 c1 c3 = true := by
  unfold keyLe at *
  rcases d1 with _ | x <;> rcases d2 with _ | y <;> rcases d3 with _ | z <;>
    simp at * <;> omega

lemma keyLe_total (d1 d2 : Option Int) (c1 c2 : Nat) :
    (keyLe d1 d2 c1 c2 || keyLe d2 d1 c2 c1) = true := by
  unfold keyLe
  rcases d1 with _ | x <;> rcases d2 with _ | y <;> simp <;> omega

lemma keyLe_specKey (d1 d2 : Option Int) (c1 c2 : Nat) (h : keyLe d1 d2 c1 c2 = true) :
    specKeyOrder d1 d2 c1 c2 := by
  unfold keyLe at h
  unfold specKeyOrder
  rcases d1 with _ | x <;> rcases d2 with _ | y <;> simp at h ⊢ <;> omega

lemma readLe_trans (a b c : Exercise) (h1 : readLe a b = true) (h2 : readLe b c = true) :
    readLe a c = true :=
  keyLe_trans _ _ _ _ _ _ h1 h2

lemma readLe_total (a b : Exercise) : (readLe a b || readLe b a) = true :=
  keyLe_total _ _ _ _

lemma readLe_spec (a b : Exercise) (h : readLe a b = true) : specReadOrder a b :=
  keyLe_specKey _ _ _ _ h

/-- C6.  The ordered read returns a permutation of the group's rows that is
sorted by `displayOrder` ascending with nulls last, ties (including the
all-null case) broken by descending creation time. -/
theorem getExercisesByGroup_sorted (rows : List Exercise) :
    (getExercisesByGroup rows).Perm rows
    ∧ List.Pairwise specReadOrder (getExercisesByGroup rows) :=
  ⟨List.mergeSort_perm rows readLe,
   (List.sorted_mergeSort readLe_trans readLe_total rows).imp (readLe_spec _ _)⟩

/-- The write phase of the drag-reorder handler `updateOrder`: every item
of the list (in its new visual order) gets `display_order = index + 1`
(1-based, dense); all other fields are untouched. -/
def reorderFrom (k : Int) : List Exercise → List Exercise
  | [] => []
  | e :: es => { e with display_order := some (k + 1) } :: reorderFrom (k + 1) es

/-- `updateOrder(newExercises)`: the group's rows after the per-row
`display_order` writes issued by `updateExerciseOrder` succeed. -/
def updateOrder (l : List Exercise) : List Exercise :=
  reorderFrom 0 l

lemma mem_reorderFrom : ∀ (l : List Exercise) (k : Int) (e : Exercise),
    e ∈ reorderFrom k l → ∃ j : Int, e.display_order = some j ∧ k < j := by
  intro l
  induction l with
  | nil => intro k e h; simp [reorderFrom] at h
  | cons a l ih =>
    intro k e h
    simp only [reorderFrom] at h
    rcases List.mem_cons.mp h with h1 | h1
    · subst h1
      exact ⟨k + 1, rfl, by omega⟩
    · obtain ⟨j, hj, hk⟩ := ih (k + 1) e h1
      exact ⟨j, hj, by omega⟩

lemma pairwise_reorderFrom : ∀ (l : List Exercise) (k : Int),
    List.Pairwise (fun a b => readLe a b = true) (reorderFrom k l) := by
  intro l
  induction l with
  | nil => intro k; simp [reorderFrom]
  | cons a l ih =>
    intro k
    simp only [reorderFrom]
    refine List.Pairwise.cons ?_ (ih (k + 1))
    intro b hb
    obtain ⟨j, hj, hk⟩ := mem_reorderFrom l (k + 1) b hb
    unfold readLe keyLe
    rw [hj]
    simp
    omega

lemma map_id_reorderFrom : ∀ (l : List Exercise) (k : Int),
    (reorderFrom k l).map Exercise.id = l.map Exercise.id := by
  intro l
  induction l with
  | nil => intro k; rfl
  | cons a l ih =>
    intro k
    simp only [reorderFrom, List.map_cons, ih]

/-- C4.  Order round-trip: writing `display_order = index + 1` over a
non-empty list in its new visual order and then reading ordered by
`display_order` returns exactly that list (same rows, same order). -/
theorem updateOrder_roundtrip (l : List Exercise) (h : l ≠ []) :
    getExercisesByGroup (updateOrder l) = updateOrder l
    ∧ (updateOrder l).map Exercise.id = l.map Exercise.id :=
  ⟨List.mergeSort_of_sorted (pairwise_reorderFrom l 0), map_id_reorderFrom l 0⟩

/-- Witness for the order round-trip at a concrete two-row group. -/
theorem updateOrder_roundtrip_witness :
    getExercisesByGroup (updateOrder [⟨1, none, 5⟩, ⟨2, some 9, 3⟩]) =
      updateOrder [⟨1, none, 5⟩, ⟨2, some 9, 3⟩]
    ∧ (updateOrder [⟨1, none, 5⟩, ⟨2, some 9, 3⟩]).map Exercise.id =
        [⟨1, none, 5⟩, ⟨2, some 9, 3⟩].map Exercise.id :=
  updateOrder_roundtrip [⟨1, none, 5⟩, ⟨2, some 9, 3⟩] (by decide)

/-- A `groups` row, restricted to its owner column. -/
structure GroupRow where
  id : Nat
  owner_id : Nat

/-- `updateExerciseOrder(groupId, exerciseOrders)`: resolve the current
user, fetch the group's owner, and only when the caller owns the group
issue the per-row `display_order` updates.  Returns the issued writes
together with the error, mirroring the source's throw sites. -/
def updateExerciseOrder (user : Option Nat) (group : Option GroupRow)
    (orders : List (Nat × Int)) : List (Nat × Int) × Option String :=
  match user with
  | none => ([], some "User not authenticated")
  | some uid =>
    match group with
    | none => ([], some "Only group owners can reorder exercises")
    | some g =>
      if g.owner_id = uid then (orders, none)
      else ([], some "Only group owners can reorder exercises")

/-- C5.  Authorization gate: a caller who is not the group's owner gets an
authorization error and zero position writes are issued (the ownership
check precedes every write). -/
theorem updateExerciseOrder_auth_gate (uid : Nat) (g : GroupRow) (orders : List (Nat × Int))
    (h : g.owner_id ≠ uid) :
    updateExerciseOrder (some uid) (some g) orders =
      ([], some "Only group owners can reorder exercises") := by
  simp only [updateExerciseOrder]
  rw [if_neg h]

/-- Witness for the authorization gate at a concrete non-owner. -/
theorem updateExerciseOrder_auth_gate_witness :
    updateExerciseOrder (some 1) (some ⟨0, 2⟩) [(5, 1)] =
      ([], some "Only group owners can reorder exercises") :=
  updateExerciseOrder_auth_gate 1 ⟨0, 2⟩ [(5, 1)] (by decide)

/-- Comparator of the `display_order` lookup in `createExercise`:
`order('display_order', { ascending: false })` with no nulls option, which
PostgreSQL executes as `DESC NULLS FIRST` — null rows sort before every
valued row, values descending. -/
def descNullsFirstLe (a b : Exercise) : Bool :=
  match a.display_order, b.display_order with
  | none, _ => true
  | some _, none => false
  | some x, some y => decide (y ≤ x)

/-- The `nextOrder` computation of `createExercise`: take the first row of
the group ordered by `display_order` descending (`limit(1)`), and use
`(existingExercises[0].display_order || 0) + 1`, or 1 for an empty
group. -/
def nextOrder (rows : List Exercise) : Int :=
  match (rows.mergeSort descNullsFirstLe).head? with
  | none => 1
  | some r => jsOrInt r.display_order 0 + 1

/-- The row inserted by `createExercise`, restricted to the ordering
fields: the new exercise gets `display_order = nextOrder`. -/
def createExercise (rows : List Exercise) (id created : Nat) : Exercise :=
  ⟨id, some (nextOrder rows), created⟩

lemma descNullsFirstLe_trans (a b c : Exercise)
    (h1 : descNullsFirstLe a b = true) (h2 : descNullsFirstLe b c = true) :
    descNullsFirstLe a c = true := by
  unfold descNullsFirstLe at *
  rcases ha : a.display_order with _ | x <;> rcases hb : b.display_order with _ | y <;>
    rcases hc : c.display_order with _ | z <;> rw [ha, hb] at h1 <;> rw [hb, hc] at h2 <;>
    simp at * <;> omega

lemma descNullsFirstLe_total (a b : Exercise) :
    (descNullsFirstLe a b || descNullsFirstLe b a) = true := by
  unfold descNullsFirstLe
  rcases ha : a.display_order with _ | x <;> rcases hb : b.display_order with _ | y <;>
    simp <;> omega

lemma getLast_eq_of_pairwise {α : Type _} {R : α → α → Prop} :
    ∀ (l : List α) (a : α), l.Pairwise R → a ∈ l → (∀ x ∈ l, x ≠ a → ¬R a x) →
      l.getLast? = some a := by
  intro l
  induction l with
  | nil => intro a _ ha _; exact absurd ha (List.not_mem_nil a)
  | cons b t ih =>
    intro a hp ha hmax
    rw [List.pairwise_cons] at hp
    cases t with
    | nil =>
      rcases List.mem_singleton.mp ha with rfl
      rfl
    | cons c t' =>
      rw [List.getLast?_cons_cons]
      have hat : a ∈ c :: t' := by
        rcases List.mem_cons.mp ha with rfl | h1
        · have hc : R a c := hp.1 c (List.mem_cons_self c t')
          by_cases hca : c = a
          · rw [hca]
            exact List.mem_cons_self a t'
          · exact absurd hc (hmax c (List.mem_cons_of_mem a (List.mem_cons_self c t')) hca)
        · exact h1
      exact ih a hp.2 hat (fun x hx hne => hmax x (List.mem_cons_of_mem b hx) hne)

lemma head_mergeSort_max (rows : List Exercise) (m : Int)
    (hub : ∀ e ∈ rows, ∃ v, e.display_order = some v ∧ v ≤ m)
    (hmem : ∃ e ∈ rows, e.display_order = some m) :
    ∃ r rest, rows.mergeSort descNullsFirstLe = r :: rest ∧ r.display_order = some m := by
  have hperm := List.mergeSort_perm rows descNullsFirstLe
  have hs := List.sorted_mergeSort descNullsFirstLe_trans descNullsFirstLe_total rows
  obtain ⟨em, hmemrows, hem⟩ := hmem
  cases hl : rows.mergeSort descNullsFirstLe with
  | nil =>
    have : em ∈ rows.mergeSort descNullsFirstLe := hperm.mem_iff.mpr hmemrows
    rw [hl] at this
    exact absurd this (List.not_mem_nil em)
  | cons r rest =>
    refine ⟨r, rest, rfl, ?_⟩
    have hrmem : r ∈ rows := hperm.mem_iff.mp (hl ▸ List.mem_cons_self r rest)
    obtain ⟨w, hw, hwm⟩ := hub r hrmem
    have hemmem : em ∈ r :: rest := hl ▸ hperm.mem_iff.mpr hmemrows
    rcases List.mem_cons.mp hemmem with rfl | hin
    · exact hem
    · have hp := hl ▸ hs
      rw [List.pairwise_cons] at hp
      have hle := hp.1 em hin
      unfold descNullsFirstLe at hle
      rw [hw, hem] at hle
      simp at hle
      rw [hw]
      congr 1
      omega

/-- C7 counterexample.  In a group whose rows are `[display_order = null,
display_order = 5]` — current maximum `displayOrder` 5 — `createExercise`
computes `nextOrder = 1`, not `6`: the descending `limit(1)` lookup returns
the NULL row (PostgreSQL `DESC` = `NULLS FIRST`) and `null || 0` gives 0. -/
theorem nextOrder_null_cex :
    ([⟨1, none, 100⟩, ⟨2, some 5, 50⟩] : List Exercise).filterMap
        (fun e => e.display_order) = [(5 : Int)]
    ∧ nextOrder [⟨1, none, 100⟩, ⟨2, some 5, 50⟩] = 1
    ∧ (1 : Int) ≠ 5 + 1 := by
  refine ⟨by decide, ?_, by decide⟩
  have hs : ([⟨1, none, 100⟩, ⟨2, some 5, 50⟩] : List Exercise).mergeSort descNullsFirstLe =
      [⟨1, none, 100⟩, ⟨2, some 5, 50⟩] :=
    List.mergeSort_of_sorted (by decide)
  unfold nextOrder
  rw [hs]
  decide

/-- C7 amended.  When every existing row of the group has a non-null
`display_order` and the maximum is `m`, the created item gets
`display_order = m + 1` and appears last on the ordered read.  (With a
null-`display_order` row present the claim fails, see the
counterexample.) -/
theorem createExercise_append (rows : List Exercise) (m : Int) (id created : Nat)
    (hne : rows ≠ [])
    (hub : ∀ e ∈ rows, ∃ v, e.display_order = some v ∧ v ≤ m)
    (hmem : ∃ e ∈ rows, e.display_order = some m) :
    nextOrder rows = m + 1
    ∧ (getExercisesByGroup (rows ++ [createExercise rows id created])).getLast? =
        some (createExercise rows id created) := by
  obtain ⟨r, rest, hl, hr⟩ := head_mergeSort_max rows m hub hmem
  have hno : nextOrder rows = m + 1 := by
    have h1 : nextOrder rows = jsOrInt r.display_order 0 + 1 := by
      unfold nextOrder
      rw [hl]
      rfl
    rw [h1, hr]
    simp only [jsOrInt]
    by_cases hm : m = 0
    · subst hm
      simp
    · rw [if_neg hm]
  refine ⟨hno, ?_⟩
  apply getLast_eq_of_pairwise
  · exact List.sorted_mergeSort readLe_trans readLe_total (rows ++ [createExercise rows id created])
  · exact (List.mergeSort_perm _ readLe).mem_iff.mpr
      (List.mem_append_right rows (List.mem_singleton.mpr rfl))
  · intro x hx hne2
    have hx' : x ∈ rows ++ [createExercise rows id created] :=
      (List.mergeSort_perm _ readLe).mem_iff.mp hx
    rcases List.mem_append.mp hx' with hxr | hxn
    · obtain ⟨v, hv, hvm⟩ := hub x hxr
      intro hRx
      unfold readLe keyLe at hRx
      simp only [createExercise, hno] at hRx
      rw [hv] at hRx
      simp at hRx
      omega
    · exact absurd (List.mem_singleton.mp hxn) hne2

/-- Witness for the amended append property at a concrete one-row group. -/
theorem createExercise_append_witness :
    nextOrder [⟨1, some 5, 0⟩] = 5 + 1
    ∧ (getExercisesByGroup ([⟨1, some 5, 0⟩] ++ [createExercise [⟨1, some 5, 0⟩] 2 7])).getLast? =
        some (createExercise [⟨1, some 5, 0⟩] 2 7) :=
  createExercise_append [⟨1, some 5, 0⟩] 5 2 7 (by decide)
    (by
      intro e he
      rw [List.mem_singleton] at he
      subst he
      exact ⟨5, rfl, le_refl 5⟩)
    ⟨⟨1, some 5, 0⟩, List.mem_singleton.mpr rfl, rfl⟩

/-- An exercise as seen by the timeframe modal: default range (normalised
to day numbers) and the optional `number_of_days` constraint. -/
structure TFExercise where
  start_day : Int
  end_day : Int
  number_of_days : Option Int

/-- Result of a `handleSave` attempt in `EditTimeframeModal`: one of the
alert-and-return rejection paths, or the saved range passed to
`upsertCustomization`. -/
inductive SaveOutcome where
  | missingDates
  | startOutOfRange
  | endOutOfRange
  | endBeforeStart
  | wrongDayCount
  | saved (s e : Int)
deriving DecidableEq

/-- `calculateDays`: whole days between two midnight-normalised dates,
inclusive of both ends. -/
def calculateDays (s e : Int) : Int :=
  e - s + 1

/-- The validation sequence of `handleSave`: missing dates, start out of
the exercise range, end out of range, end before start, then (when the
exercise declares a truthy `number_of_days`) the exact-span check; only
after all checks does the customization upsert run. -/
def handleSave (ex : TFExercise) (startDate endDate : Option Int) : SaveOutcome :=
  match startDate, endDate with
  | some s, some e =>
    if s < ex.start_day ∨ ex.end_day < s then SaveOutcome.startOutOfRange
    else if e < ex.start_day ∨ ex.end_day < e then SaveOutcome.endOutOfRange
    else if e < s then SaveOutcome.endBeforeStart
    else
      match ex.number_of_days with
      | some n =>
        if n ≠ 0 ∧ calculateDays s e ≠ n then SaveOutcome.wrongDayCount
        else SaveOutcome.saved s e
      | none => SaveOutcome.saved s e
  | _, _ => SaveOutcome.missingDates

/-- The range handed to `upsertCustomization`, if any: only the `saved`
outcome reaches the upsert call. -/
def persistedCustomization : SaveOutcome → Option (Int × Int)
  | SaveOutcome.saved s e => some (s, e)
  | _ => none

/-- C8.  Override bounds: an override is persisted only when its range lies
within the exercise's default range, is non-degenerate, and matches a
declared (truthy) `numberOfDays` exactly; contrapositively, a
`customStartDate` before `item.startDate`, a range outside
`[startDate, endDate]`, or a wrong span is rejected with nothing
persisted. -/
theorem handleSave_bounds (ex : TFExercise) (sd ed : Option Int) (s e : Int)
    (h : persistedCustomization (handleSave ex sd ed) = some (s, e)) :
    ex.start_day ≤ s ∧ s ≤ ex.end_day ∧ ex.start_day ≤ e ∧ e ≤ ex.end_day ∧ s ≤ e
    ∧ ∀ n, ex.number_of_days = some n → n ≠ 0 → e - s + 1 = n := by
  rcases sd with _ | s0
  · simp [handleSave, persistedCustomization] at h
  · rcases ed with _ | e0
    · simp [handleSave, persistedCustomization] at h
    · simp only [handleSave] at h
      by_cases h1 : s0 < ex.start_day ∨ ex.end_day < s0
      · rw [if_pos h1] at h
        simp [persistedCustomization] at h
      · rw [if_neg h1] at h
        by_cases h2 : e0 < ex.start_day ∨ ex.end_day < e0
        · rw [if_pos h2] at h
          simp [persistedCustomization] at h
        · rw [if_neg h2] at h
          by_cases h3 : e0 < s0
          · rw [if_pos h3] at h
            simp [persistedCustomization] at h
          · rw [if_neg h3] at h
            rcases hn : ex.number_of_days with _ | n
            · rw [hn] at h
              simp [persistedCustomization] at h
              obtain ⟨rfl, rfl⟩ := h
              refine ⟨by omega, by omega, by omega, by omega, by omega, ?_⟩
              intro n2 hn2
              simp at hn2
            · rw [hn] at h
              by_cases h4 : n ≠ 0 ∧ calculateDays s0 e0 ≠ n
              · simp [persistedCustomization, h4] at h
              · simp [persistedCustomization, h4] at h
                obtain ⟨rfl, rfl⟩ := h
                push_neg at h4
                refine ⟨by omega, by omega, by omega, by omega, by omega, ?_⟩
                intro n2 hn2 hne0
                injection hn2 with hh
                subst hh
                have h5 := h4 hne0
                unfold calculateDays at h5
                omega

/-- Witness for the override-bounds theorem at a concrete accepted save. -/
theorem handleSave_bounds_witness :
    TFExercise.start_day ⟨0, 20, some 10⟩ ≤ 3 ∧ (3 : Int) ≤ 20
    ∧ TFExercise.start_day ⟨0, 20, some 10⟩ ≤ 12 ∧ (12 : Int) ≤ 20 ∧ (3 : Int) ≤ 12
    ∧ ∀ n, TFExercise.number_of_days ⟨0, 20, some 10⟩ = some n → n ≠ 0 →
        (12 : Int) - 3 + 1 = n :=
  handleSave_bounds ⟨0, 20, some 10⟩ (some 3) (some 12) 3 12 (by decide)
